import Mathlib

/-!
Verification of the client-side Plan Graph Model of the SC3020 SQL-plan
visualizer: graph ingestion (`convertToTree.ts`, `convertAQPToTree`), edit
tracking and plan reconciliation (`QEPPanel.tsx`).

The TypeScript sources are shallowly embedded: JS objects become Lean
structures, component `useState` fields become a `PanelState` record, event
handlers become state-transition functions, and the asynchronous
`generateAQP` is split at its `fetch` boundary into a request-building step
and a response-handling step.  JS truthiness on strings (`x || d`) is
modelled by `jsOr`, ES `Map` insertion-order semantics by an association
list, and the stable ES2019 `Array.prototype.sort` by a stable insertion
sort.
-/

/-- Models the JS idiom `x || d` for an optional string `x`: both `undefined`
and the empty string (the only falsy string) fall back to the default. -/
def jsOr (v : Option String) (d : String) : String :=
  match v with
  | some s => if s = "" then d else s
  | none => d

/-- Insertion into an ES `Map` (as an association list): `set` on an existing
key overwrites the value but keeps the key's original iteration position;
a new key is appended at the end. -/
def jsMapInsert (m : List (String × α)) (k : String) (v : α) : List (String × α) :=
  if m.any (fun p => p.1 = k) then m.map (fun p => if p.1 = k then (k, v) else p)
  else m ++ [(k, v)]

/-- `Map.prototype.get`. -/
def jsMapGet (m : List (String × α)) (k : String) : Option α :=
  (m.find? (fun p => p.1 = k)).map (fun p => p.2)

/-- `Map.prototype.values()`, in iteration order. -/
def jsMapValues (m : List (String × α)) : List α := m.map (fun p => p.2)

/-- Splits a character list into consecutive chunks of `n + 1` characters,
modelling the regex `s.match(/.{1,n+1}/g)` on newline-free text (an empty
string gives `null`, coerced to `[]` by the sources).  The `fuel` argument
makes the recursion structural; callers pass `fuel = l.length`, which always
suffices since each step consumes at least one character. -/
def chunkFuel (n : Nat) : Nat → List Char → List (List Char)
  | _, [] => []
  | 0, l => [l]
  | fuel + 1, c :: cs => (c :: cs.take n) :: chunkFuel n fuel (cs.drop n)

/-- String-level wrapping at width `n + 1` (so `chunkStr 39` is the sources'
`maxLineLength = 40` regex, `chunkStr 34` is width 35). -/
def chunkStr (n : Nat) (s : String) : List String :=
  (chunkFuel n s.data.length s.data).map (fun l => ⟨l⟩)

/-- Character-wise `String.prototype.toUpperCase` (kernel-reducible form). -/
def jsToUpper (s : String) : String := ⟨s.data.map Char.toUpper⟩

/-! ## Graph ingestion inputs

Backend payload shapes.  `convertToTree.ts` reads `id`, `type`, `table` and
`isLeaf` off the QEP graph nodes; `convertAQPToTree` additionally reads
`join_or_scan`, `cost`, `tables`, `isRoot` and `conditions`.  Optional
fields model JS properties that may be absent from the payload. -/

structure GraphEdge where
  source : String
  target : String
deriving DecidableEq, Repr

structure NXNode where
  id : String
  type : String
  table : Option String
  isLeaf : Bool
deriving DecidableEq, Repr

structure NetworkXData where
  nodes : List NXNode
  edges : List GraphEdge
deriving DecidableEq, Repr

structure AQPNode where
  id : String
  type : String
  join_or_scan : Option String
  cost : Option String
  tables : Option (List String)
  isLeaf : Option Bool
  isRoot : Option Bool
  conditions : Option (List String)
deriving DecidableEq, Repr

structure AQPData where
  nodes : List AQPNode
  edges : List GraphEdge
deriving DecidableEq, Repr

/-! ## convertNetworkXToTree (components/convertToTree.ts)

The converter stores, for each payload node, the record
`{id, type, name, children: [], isLeaf}` in an ES `Map`, then for each edge
pushes the target's record onto the source's `children` (skipping the edge
when either end is missing from the map), and returns `nodeMap.get('1')`.
The JS result is an object graph; we model it as its tree unfolding with
recursion fuel `nodes.length + 1`, which is faithful for acyclic inputs
(the §3 invariant: ingested plans are trees). -/

inductive QTreeNode : Type where
  | mk : (id type name : String) → (isLeaf : Bool) → (children : List QTreeNode) → QTreeNode

def QTreeNode.id : QTreeNode → String
  | .mk i _ _ _ _ => i

def QTreeNode.type : QTreeNode → String
  | .mk _ t _ _ _ => t

def QTreeNode.name : QTreeNode → String
  | .mk _ _ n _ _ => n

def QTreeNode.isLeaf : QTreeNode → Bool
  | .mk _ _ _ l _ => l

def QTreeNode.children : QTreeNode → List QTreeNode
  | .mk _ _ _ _ c => c

/-- The record stored by `convertToTree.ts` has no `table` field (only the
`name` label embeds the table text), so the later JS access `node?.table`
in `QEPPanel.tsx` always yields `undefined`. -/
def QTreeNode.tableField (_ : QTreeNode) : Option String := none

/-- `const label = `${node.type}${tableLabel}`` with
`tableLabel = node.table ? ` (${node.table})` : ''`. -/
def nxLabel (n : NXNode) : String :=
  match n.table with
  | some t => if t = "" then n.type else n.type ++ " (" ++ t ++ ")"
  | none => n.type

/-- The node map built by the first `forEach` (keyed by `node.id`; we keep
the payload node as the value since every stored field is derived from it). -/
def nxMapOf (nodes : List NXNode) : List (String × NXNode) :=
  nodes.foldl (fun acc n => jsMapInsert acc n.id n) []

/-- Tree unfolding of the edge-linking loop shared by all the converters
(`edges.forEach` pushing the target's map record onto the source's
`children`, skipping an edge when either endpoint is missing from the map):
the children of the node stored under id `idOf n` are the targets of the
edges with that source, in edge-array order.  Generic in the node payload
`α` and the produced tree type `τ` (given by the per-converter
record-former `mkT`). -/
def buildLinked (idOf : α → String) (mkT : α → List τ → τ)
    (m : List (String × α)) (edges : List GraphEdge) : Nat → α → τ
  | 0, n => mkT n []
  | fuel + 1, n =>
    mkT n
      ((edges.filter (fun e => e.source = idOf n)).filterMap
        (fun e => (jsMapGet m e.target).map (buildLinked idOf mkT m edges fuel)))

/-- The record-former of `convertToTree.ts`:
`{id, type, name: label, children, isLeaf}`. -/
def nxMk (n : NXNode) (cs : List QTreeNode) : QTreeNode :=
  .mk n.id n.type (nxLabel n) n.isLeaf cs

def buildNXTree (m : List (String × NXNode)) (edges : List GraphEdge) :
    Nat → NXNode → QTreeNode :=
  buildLinked NXNode.id nxMk m edges

def convertNetworkXToTree (d : NetworkXData) : Option QTreeNode :=
  let m := nxMapOf d.nodes
  (jsMapGet m "1").map (buildNXTree m d.edges (d.nodes.length + 1))

/-! ## convertAQPToTree (AQP-graph converter draft)

Step 1 normalizes each payload node (`join_or_scan || 'Unknown'`,
`cost || 'N/A'`, tables joined with `', '` and wrapped at `maxLineLength =
40`, `isLeaf || false`, `isRoot || false`, `conditions || []`); Step 2 links
children exactly as above; Steps 3–5 pick the first map value flagged
`isRoot`, falling back to the first node in map iteration order
(`nodeMap.values().next().value`). -/

structure AQPStored where
  id : String
  type : String
  join_or_scan : String
  cost : String
  tables : List String
  isLeaf : Bool
  isRoot : Bool
  conditions : List String
deriving DecidableEq, Repr

/-- Step 1 normalization of one payload node.  `node.cost || 'N/A'` is
modelled by `jsOr` on an optional string (the payload's numeric-zero
falsiness is subsumed by the empty-string case; no claim touches cost). -/
def aqpStore (n : AQPNode) : AQPStored :=
  { id := n.id
  , type := n.type
  , join_or_scan := jsOr n.join_or_scan "Unknown"
  , cost := jsOr n.cost "N/A"
  , tables := chunkStr 39 (match n.tables with
      | some l => String.intercalate ", " l
      | none => "No tables")
  , isLeaf := n.isLeaf.getD false
  , isRoot := n.isRoot.getD false
  , conditions := n.conditions.getD [] }

inductive AQPTree : Type where
  | mk : (node : AQPStored) → (children : List AQPTree) → AQPTree

def AQPTree.node : AQPTree → AQPStored
  | .mk n _ => n

def AQPTree.children : AQPTree → List AQPTree
  | .mk _ c => c

def aqpMapOf (nodes : List AQPNode) : List (String × AQPStored) :=
  nodes.foldl (fun acc n => jsMapInsert acc n.id (aqpStore n)) []

def buildAQPTree (m : List (String × AQPStored)) (edges : List GraphEdge) :
    Nat → AQPStored → AQPTree :=
  buildLinked AQPStored.id AQPTree.mk m edges

def convertAQPToTree (d : AQPData) : Option AQPTree :=
  let m := aqpMapOf d.nodes
  let rootNode := (jsMapValues m).find? (fun s => s.isRoot)
  (match rootNode with
   | some r => some r
   | none => (jsMapValues m).head?).map (buildAQPTree m d.edges (d.nodes.length + 1))

/-- The §8 scenario graph: a join over a scan of `customer`. -/
def demoGraph : NetworkXData :=
  { nodes := [ { id := "1", type := "Hash Join", table := none, isLeaf := false }
             , { id := "2", type := "Seq Scan", table := some "customer", isLeaf := true } ]
  , edges := [ { source := "1", target := "2" } ] }

/-! ## Position-sorting converter draft (utils/convertToTree.ts, evolved draft)

The evolved `convertNetworkXToTree` draft keys the map by `node._id`, keeps
the node's visible attributes (including the `position` tag) and, after
linking children, recursively sorts every node's children with

  `node.children.sort((a, b) => order[a.position] - order[b.position])`

where `order = { l: -1, c: 0, r: 1, s: 2 }`.  ES2019 `Array.prototype.sort`
is stable, and `SortCompare` coerces a `NaN` comparator result (which arises
exactly when a compared node lacks a `position` tag, making
`order[a.position]` `undefined`) to `+0`, i.e. "leave the pair in order".
We model the comparator by `positionCompare` and the stable sort by a stable
insertion sort (`sortStable`). -/

inductive Position : Type where
  | l | c | r | s
deriving DecidableEq, Repr

def posVal : Position → Int
  | .l => -1
  | .c => 0
  | .r => 1
  | .s => 2

structure PosNode where
  _id : String
  node_type : String
  position : Option Position
  isRoot : Option Bool
deriving DecidableEq, Repr

inductive PosTree : Type where
  | mk : (node : PosNode) → (children : List PosTree) → PosTree

def PosTree.node : PosTree → PosNode
  | .mk n _ => n

def PosTree.children : PosTree → List PosTree
  | .mk _ c => c

def posOf (t : PosTree) : Option Position := t.node.position

/-- The JS comparator `order[a.position] - order[b.position]`, with the
ES `SortCompare` coercion of `NaN` (missing tag) to `+0`. -/
def positionCompare (a b : PosTree) : Int :=
  match posOf a, posOf b with
  | some p, some q => posVal p - posVal q
  | _, _ => 0

/-- Stable insertion: `x` is placed before the first element strictly greater
under `cmp`, hence after every element comparing equal to it. -/
def insertStable (cmp : α → α → Int) (x : α) : List α → List α
  | [] => [x]
  | y :: ys => if cmp x y < 0 then x :: y :: ys else y :: insertStable cmp x ys

/-- Stable sort by repeated stable insertion, left to right; models the
(stable) ES2019 `Array.prototype.sort`. -/
def sortStable (cmp : α → α → Int) (l : List α) : List α :=
  l.foldl (fun acc x => insertStable cmp x acc) []

mutual
def PosTree.size : PosTree → Nat
  | .mk _ cs => 1 + PosTree.sizeForest cs
def PosTree.sizeForest : List PosTree → Nat
  | [] => 0
  | t :: ts => PosTree.size t + PosTree.sizeForest ts
end

/-- Recursive child sorting, as `sortNodesByPosition` in the draft
converter: sort this node's children, then recurse into each (sorted)
child.  The `fuel` argument makes the recursion structural; the wrapper
below passes the tree's node count, which strictly exceeds its depth (every
child's size is strictly smaller than its parent's), so the `fuel = 0`
fallback is never reached. -/
def sortNodesByPositionFuel : Nat → PosTree → PosTree
  | 0, t => t
  | fuel + 1, .mk n cs =>
    .mk n ((sortStable positionCompare cs).map (sortNodesByPositionFuel fuel))

def sortNodesByPosition (t : PosTree) : PosTree :=
  sortNodesByPositionFuel t.size t

/-- The draft converter's node map (keyed by `node._id`). -/
def posMapOf (nodes : List PosNode) : List (String × PosNode) :=
  nodes.foldl (fun acc n => jsMapInsert acc n._id n) []

def buildPosTree (m : List (String × PosNode)) (edges : List GraphEdge) :
    Nat → PosNode → PosTree :=
  buildLinked PosNode._id PosTree.mk m edges

/-- The evolved draft converter: link, find the first map value with a truthy
`isRoot`, fall back to the first map value, and sort recursively. -/
def convertNetworkXToTreeDraft (nodes : List PosNode) (edges : List GraphEdge) :
    Option PosTree :=
  let m := posMapOf nodes
  let rootNode := (jsMapValues m).find? (fun n => n.isRoot.getD false)
  (match rootNode with
   | some r => some r
   | none => (jsMapValues m).head?).map
    (fun r => sortNodesByPosition (buildPosTree m edges (nodes.length + 1) r))

/-- A childless position-tagged tree node, for concrete sort inputs. -/
def pn (i : String) (p : Option Position) : PosTree :=
  .mk { _id := i, node_type := "JOIN", position := p, isRoot := none } []

/-- The comparator key of a node: its `position` tag's rank (`0`, the `c`
rank, for an untagged node — only used in statements about fully tagged
lists, where it is never consulted for untagged nodes). -/
def posKey (t : PosTree) : Int :=
  match posOf t with
  | some p => posVal p
  | none => 0

/-! ## QEPPanel component state (components/QEPPanel.tsx)

Each `useState` hook becomes a field of `PanelState`; the parent callback
`applyWhatIfChanges` is recorded in `appliedWhatIfSQL`.  The cosmetic
fields (translate/zoom) and notification auto-hide timers are not part of
any claim and are omitted. -/

structure SelectedNode where
  id : Option String
  type : Option String
  join_or_scan : Option String
  newType : Option String
deriving DecidableEq, Repr

structure PendingChange where
  id : Option String
  newType : String
  originalType : Option String
deriving DecidableEq, Repr

/-- The fields `handleNodeClick` reads off the clicked d3 node's `data`
(tree records always carry `id` and `type`; `join_or_scan` is present only
when the ingesting converter stored it). -/
structure ClickData where
  id : Option String
  type : Option String
  join_or_scan : Option String
deriving DecidableEq, Repr

structure PanelState where
  qepTreeData : Option QTreeNode
  modifiedTreeData : Option QTreeNode
  selectedNode : Option SelectedNode
  pendingChanges : List PendingChange
  showErrorNotification : Bool
  showSuccessNotification : Bool
  modifiedSQL : String
  totalCostOriginalQEP : Option Int
  totalCostAQP : Option Int
  generatedAQPData : Option AQPTree
  apiHints : List (String × String)
  appliedWhatIfSQL : Option String

def initialPanelState : PanelState :=
  { qepTreeData := none, modifiedTreeData := none, selectedNode := none
  , pendingChanges := [], showErrorNotification := false
  , showSuccessNotification := false, modifiedSQL := ""
  , totalCostOriginalQEP := none, totalCostAQP := none
  , generatedAQPData := none, apiHints := [], appliedWhatIfSQL := none }

/-- The `useEffect` on `qepData`: ingest and set both trees (the JSON
round-trip deep clone of a tree value is the value itself). -/
def ingestQepData (s : PanelState) (qepData : NetworkXData) : PanelState :=
  let treeData := convertNetworkXToTree qepData
  { s with qepTreeData := treeData, modifiedTreeData := treeData }

/-- `handleNodeClick`: unconditionally replaces the selection with the
clicked node's data, applying the `|| 'Unknown …'` fallbacks. -/
def handleNodeClick (s : PanelState) (d : ClickData) : PanelState :=
  let sel : SelectedNode :=
    { id := some (jsOr d.id "Unknown ID")
    , type := some (jsOr d.type "Unknown Type")
    , join_or_scan := some (jsOr d.join_or_scan "Unknown")
    , newType := none }
  { s with selectedNode := some sel }

/-- `handleScanChange` / `handleJoinChange` (identical bodies): when the
select value is non-null, spread the previous selection with the new
`newType` (a null previous selection spreads to an object holding only
`newType`, i.e. all other fields `undefined`). -/
def handleScanChange (s : PanelState) (v : Option String) : PanelState :=
  match v with
  | none => s
  | some value =>
    let prev : SelectedNode :=
      match s.selectedNode with
      | some p => p
      | none => { id := none, type := none, join_or_scan := none, newType := none }
    { s with selectedNode := some { prev with newType := some value } }

def handleJoinChange (s : PanelState) (v : Option String) : PanelState :=
  handleScanChange s v

mutual
/-- `updateTreeData`: sets `type` and `name` at every node whose `id`
strictly equals `nodeId` (an `undefined` `nodeId` matches no node), without
recursing below a matched node.  Mutual with its `forEach` over children. -/
def updateTreeData (nodeId : Option String) (newType : String) : QTreeNode → QTreeNode
  | .mk i ty nm lf cs =>
    if some i = nodeId then .mk i newType newType lf cs
    else .mk i ty nm lf (updateChildren nodeId newType cs)
def updateChildren (nodeId : Option String) (newType : String) :
    List QTreeNode → List QTreeNode
  | [] => []
  | c :: cs => updateTreeData nodeId newType c :: updateChildren nodeId newType cs
end

mutual
/-- `findNodeById`: depth-first, node before children, children in order. -/
def findNodeById (tid : String) : QTreeNode → Option QTreeNode
  | .mk i ty nm lf cs =>
    if i = tid then some (.mk i ty nm lf cs) else findInChildren tid cs
def findInChildren (tid : String) : List QTreeNode → Option QTreeNode
  | [] => none
  | c :: cs =>
    match findNodeById tid c with
    | some r => some r
    | none => findInChildren tid cs
end

/-- `confirmChange`: guarded by the truthiness of `selectedNode`,
`selectedNode.newType` and `selectedNode.join_or_scan !== 'Unknown'`
(an absent `join_or_scan` passes the strict-inequality test); on success it
clones the working tree, applies `updateTreeData`, appends the pending
change and clears the selection.  A `null` working tree is modelled by the
`Option.map` (that degenerate flow is unreachable from a rendered tree). -/
def confirmChange (s : PanelState) : PanelState :=
  match s.selectedNode with
  | none => s
  | some sel =>
    match sel.newType with
    | none => s
    | some nt =>
      if nt ≠ "" ∧ sel.join_or_scan ≠ some "Unknown" then
        { s with
          modifiedTreeData := s.modifiedTreeData.map (updateTreeData sel.id nt)
        , pendingChanges := s.pendingChanges ++
            [{ id := sel.id, newType := nt, originalType := sel.type }]
        , selectedNode := none }
      else s

/-- One user interaction in the edit-tracking lifecycle. -/
inductive EditOp : Type where
  | click (d : ClickData)
  | scanChange (v : Option String)
  | joinChange (v : Option String)
  | confirm
deriving DecidableEq, Repr

def editStep (s : PanelState) : EditOp → PanelState
  | .click d => handleNodeClick s d
  | .scanChange v => handleScanChange s v
  | .joinChange v => handleJoinChange s v
  | .confirm => confirmChange s

def runEdits (s : PanelState) (ops : List EditOp) : PanelState :=
  ops.foldl editStep s

/-! ## generateAQP (lines 130–211), split at the `fetch` boundary -/

/-- One entry of the `modifications` array sent to
`POST /api/query/modify`. -/
structure Modification where
  node_type : String
  original_type : Option String
  new_type : String
  tables : List String
  node_id : Option String
deriving DecidableEq, Repr

structure RequestBody where
  query : String
  modifications : List Modification
deriving DecidableEq, Repr

/-- The per-change mapping (lines 137–146): look the node up in the working
tree by the change's id, then build
`{node_type: node?.type?.toUpperCase() || 'N/A', original_type, new_type,
tables: Array.isArray(node?.table) ? node.table : [node?.table || 'No tables'],
node_id}`.  Since the working-tree records carry no `table` field
(`QTreeNode.tableField`), the `Array.isArray` test is false and the access
yields `undefined`. -/
def buildModification (tree : Option QTreeNode) (c : PendingChange) : Modification :=
  let node : Option QTreeNode :=
    match c.id with
    | some i => tree.bind (findNodeById i)
    | none => none
  { node_type := jsOr (node.map (fun n => jsToUpper n.type)) "N/A"
  , original_type := c.originalType
  , new_type := c.newType
  , tables := [jsOr (node.bind QTreeNode.tableField) "No tables"]
  , node_id := c.id }

/-- The synchronous prefix of `generateAQP` (lines 130–153): with no pending
changes it shows the error notice and issues no request (first component
`none`); otherwise it builds the request body and leaves the state alone. -/
def generateAQPRequest (s : PanelState) (query : String) :
    Option RequestBody × PanelState :=
  if s.pendingChanges = [] then
    (none, { s with showErrorNotification := true })
  else
    (some { query := query
          , modifications := s.pendingChanges.map (buildModification s.modifiedTreeData) }
    , s)

structure CostComparison where
  original_cost : Option Int
  modified_cost : Option Int
deriving DecidableEq, Repr

structure ModifyResponseBody where
  modified_sql_query : Option String
  cost_comparison : Option CostComparison
  updated_networkx_object : Option AQPData
  hints : Option (List (String × String))
deriving DecidableEq, Repr

/-- Outcome of the `fetch`: an HTTP-success body, a non-ok response (the
`throw new Error('Failed to generate AQP')` path) or a network rejection;
the latter two land in the same `catch` block. -/
inductive FetchOutcome : Type where
  | ok (body : ModifyResponseBody)
  | httpError
  | networkError
deriving DecidableEq, Repr

/-- The response-handling suffix of `generateAQP` (lines 164–210).  On a
success body missing `updated_networkx_object`, the code sets the error
notification and aborts before any of the state assignments of lines
186–199 (the subsequent `setNotification` call names an identifier that
does not exist in this component, so it throws inside the `try`; whether
one reads the `return` or that throw, no further state is assigned and the
resulting component state is the same).  Both error outcomes of the `catch`
block likewise only set the error notification. -/
def generateAQPResponse (s : PanelState) : FetchOutcome → PanelState
  | .ok body =>
    let modifiedSql := jsOr body.modified_sql_query ""
    let originalCost := (body.cost_comparison.bind (fun c => c.original_cost)).getD 0
    let modifiedCost := (body.cost_comparison.bind (fun c => c.modified_cost)).getD 0
    let hints := body.hints.getD []
    match body.updated_networkx_object with
    | none => { s with showErrorNotification := true }
    | some g =>
      { s with
        modifiedSQL := modifiedSql
      , totalCostOriginalQEP := some originalCost
      , totalCostAQP := some modifiedCost
      , apiHints := hints
      , appliedWhatIfSQL := some modifiedSql
      , generatedAQPData := convertAQPToTree g
      , pendingChanges := []
      , showSuccessNotification := true }
  | .httpError => { s with showErrorNotification := true }
  | .networkError => { s with showErrorNotification := true }

/-- The state reached by ingesting the §8 scenario graph, clicking node
`"2"`, picking `"Index Scan"` and confirming. -/
def editedState : PanelState :=
  runEdits (ingestQepData initialPanelState demoGraph)
    [ .click { id := some "2", type := some "Seq Scan", join_or_scan := some "Scan" }
    , .scanChange (some "Index Scan")
    , .confirm ]

/-! ## Order-change (join-swap) selection mode

No order-change implementation ships under `src/` (the panels there only
implement type changes); the swap-eligibility rules exist only in the
specification (§4.2), so this component is modelled from the spec's words
and the claims about it are settled against this model. -/

/-- Modelled from the spec: the `Scan | Join | Unknown` role classification
of a plan node (§3); the concrete role-classifier code is not under
`src/`. -/
inductive NodeRole : Type where
  | scan | join | unknown
deriving DecidableEq, Repr

/-- Modelled from the spec: the node attributes the swap-eligibility rules
of §4.2 consult — identity, role, parent, and whether the node is a
synthetic/sub-query marker. -/
structure SwapNode where
  id : String
  role : NodeRole
  parentId : Option String
  isSyntheticMarker : Bool
deriving DecidableEq, Repr

/-- Modelled from the spec: "a 'sibling' is another child of the same parent
that is not itself a synthetic/sub-query marker node" (§4.2). -/
def isSibling (first other : SwapNode) : Bool :=
  other.id ≠ first.id && other.parentId = first.parentId &&
    first.parentId.isSome && !other.isSyntheticMarker

/-- Modelled from the spec: swap eligibility once one node is selected —
"if the first selection is a Join node, all Join nodes plus the first
node's sibling are enabled; otherwise only the first node's sibling is
enabled" (§4.2). -/
def swapEnabled (first other : SwapNode) : Bool :=
  match first.role with
  | .join => other.role == .join || isSibling first other
  | _ => isSibling first other

/-- Modelled from the spec: a click in order-change mode with exactly one
node already selected — re-selecting deselects, clicking a disabled node is
a no-op, clicking an enabled node adds it as the second selection (§4.2). -/
def orderModeClick (first clicked : SwapNode) : List SwapNode :=
  if clicked.id = first.id then []
  else if swapEnabled first clicked then [first, clicked]
  else [first]

/-! ## Derived notions and concrete instances used by the theorems -/

/-- Every entry of a map built by keyed insertion has its key equal to the
id of its value. -/
def KeyOk (idOf : α → String) (m : List (String × α)) : Prop :=
  ∀ p ∈ m, idOf p.2 = p.1

/-- An edge whose two endpoint ids are both present in the node map. -/
def edgeInMap (m : List (String × α)) (e : GraphEdge) : Bool :=
  (jsMapGet m e.source).isSome && (jsMapGet m e.target).isSome

/-- An edge both of whose endpoint ids occur among the payload nodes. -/
def edgeEndpointsAmongNodes (nodes : List AQPNode) (e : GraphEdge) : Bool :=
  nodes.any (fun n => n.id = e.source) && nodes.any (fun n => n.id = e.target)

def nxEdgeEndpointsAmongNodes (nodes : List NXNode) (e : GraphEdge) : Bool :=
  nodes.any (fun n => n.id = e.source) && nodes.any (fun n => n.id = e.target)

/-- One pending change applied to a tree, as `confirmChange` does. -/
def applyChange (t : QTreeNode) (c : PendingChange) : QTreeNode :=
  updateTreeData c.id c.newType t

/-- A whole pending-edits list applied in list order. -/
def applyEdits (t : QTreeNode) (cs : List PendingChange) : QTreeNode :=
  cs.foldl applyChange t

/-- Invariant of the edit-tracking lifecycle: the working tree is the
ingested tree with the current pending edits applied in order. -/
def EditInv (r : Option QTreeNode) (s : PanelState) : Prop :=
  s.qepTreeData = r ∧
  s.modifiedTreeData = r.map (fun t0 => applyEdits t0 s.pendingChanges)

/-- The root-determination rule as the spec words it (spec-side definition,
for comparison with the code): prefer a node explicitly flagged `isRoot`;
otherwise select the unique node with no incoming edge; if there are ties
or no such node, fall back to the first node in map iteration order. -/
def specRootId (d : AQPData) : Option String :=
  let stored := jsMapValues (aqpMapOf d.nodes)
  match stored.find? (fun n => n.isRoot) with
  | some n => some n.id
  | none =>
    match stored.filter (fun n => !(d.edges.any (fun e => e.target = n.id))) with
    | [n] => some n.id
    | _ => stored.head?.map AQPStored.id

/-- An AQP payload node with only `id` and `type` present. -/
def aqpPlain (i : String) : AQPNode :=
  { id := i, type := "T", join_or_scan := none, cost := none, tables := none
  , isLeaf := none, isRoot := none, conditions := none }

/-- Two nodes, neither flagged as root; the unique node with no incoming
edge is `"a"`, but `"b"` sits first in map iteration order. -/
def rootFallbackGraph : AQPData :=
  { nodes := [aqpPlain "b", aqpPlain "a"]
  , edges := [{ source := "a", target := "b" }] }

def okAqpNode1 : AQPNode :=
  { aqpPlain "1" with
      type := "Merge Join", join_or_scan := some "Join", isRoot := some true }

def okAqpNode2 : AQPNode :=
  { aqpPlain "2" with
      type := "Index Scan", join_or_scan := some "Scan", tables := some ["customer"] }

/-- A well-formed alternative-plan graph for a successful reconciliation. -/
def okAqpGraph : AQPData :=
  { nodes := [okAqpNode1, okAqpNode2]
  , edges := [ { source := "1", target := "2" } ] }

/-- A complete success body for `POST /api/query/modify`. -/
def okResponseBody : ModifyResponseBody :=
  { modified_sql_query := some "SELECT 1"
  , cost_comparison := some { original_cost := some 100, modified_cost := some 80 }
  , updated_networkx_object := some okAqpGraph
  , hints := some [("MergeJoin", "MergeJoin(c o)")] }

/-- The state after one confirmed edit followed by a successful
reconciliation. -/
def reconciledState : PanelState := generateAQPResponse editedState (.ok okResponseBody)

/-- A concrete click on a node record lacking `join_or_scan`. -/
def unknownClick : ClickData :=
  { id := some "5", type := some "Aggregate", join_or_scan := none }

/-- Concrete child lists for the sort witnesses. -/
def taggedKids : List PosTree := [pn "a" (some .r), pn "b" (some .l), pn "c" (some .l)]

def untaggedKids : List PosTree := [pn "a" none, pn "b" none, pn "c" none]

/-- The request body actually produced in the `editedState` run. -/
def demoRequestBody : RequestBody :=
  { query := "select 1"
  , modifications := [ { node_type := "INDEX SCAN", original_type := some "Seq Scan"
                       , new_type := "Index Scan", tables := ["No tables"]
                       , node_id := some "2" } ] }

/-- A selected Join node and an unrelated Scan node in another subtree. -/
def selectedJoinNode : SwapNode :=
  { id := "j1", role := .join, parentId := some "p1", isSyntheticMarker := false }

def unrelatedScanNode : SwapNode :=
  { id := "s9", role := .scan, parentId := some "p2", isSyntheticMarker := false }

/-! ## Sanity checks -/

example : (convertNetworkXToTree demoGraph).map QTreeNode.id = some "1" := by decide

example :
    ((convertNetworkXToTree demoGraph).map (fun t => t.children.map QTreeNode.name))
      = some ["Seq Scan (customer)"] := by decide

example : chunkStr 34 "customer" = ["customer"] := by decide

example : chunkStr 2 "abcdefg" = ["abc", "def", "g"] := by decide

example :
    (sortStable positionCompare [pn "a" (some .r), pn "b" (some .l), pn "c" (some .l)]).map
        (fun t => t.node._id) = ["b", "c", "a"] := by decide

example :
    (sortStable positionCompare [pn "a" none, pn "b" none, pn "c" none]).map
        (fun t => t.node._id) = ["a", "b", "c"] := by decide

example : editedState.pendingChanges =
    [{ id := some "2", newType := "Index Scan", originalType := some "Seq Scan" }] := by
  decide

example :
    (editedState.modifiedTreeData.bind (findNodeById "2")).map QTreeNode.type
      = some "Index Scan" := by decide

example :
    (editedState.qepTreeData.bind (findNodeById "2")).map QTreeNode.type
      = some "Seq Scan" := by decide

/-! ## Map and builder lemmas -/

theorem jsMapGet_isSome_any (m : List (String × α)) (k : String) :
    (jsMapGet m k).isSome = m.any (fun p => p.1 = k) := by
  induction m with
  | nil => rfl
  | cons p ps ih =>
    by_cases hp : p.1 = k <;> simp [jsMapGet, List.find?_cons, hp] <;>
      simpa [jsMapGet] using ih

theorem map_replace_any_key (m : List (String × α)) (k' : String) (v : α) (k : String) :
    ((m.map (fun p => if p.1 = k' then (k', v) else p)).any (fun p => p.1 = k))
      = m.any (fun p => p.1 = k) := by
  induction m with
  | nil => rfl
  | cons p ps ih =>
    by_cases hp : p.1 = k' <;> simp [hp, ih]

theorem jsMapInsert_any_key (m : List (String × α)) (k' : String) (v : α) (k : String) :
    ((jsMapInsert m k' v).any (fun p => p.1 = k))
      = (m.any (fun p => p.1 = k) || (k' = k)) := by
  unfold jsMapInsert
  by_cases hmem : m.any (fun p => p.1 = k')
  · rw [if_pos hmem, map_replace_any_key]
    by_cases hk : k' = k
    · subst hk
      simp [hmem]
    · simp [hk]
  · rw [if_neg hmem]
    simp

theorem foldlInsert_any_key (idOf : β → String) (f : β → α) (k : String) :
    ∀ (l : List β) (init : List (String × α)),
      ((l.foldl (fun acc n => jsMapInsert acc (idOf n) (f n)) init).any (fun p => p.1 = k))
        = (init.any (fun p => p.1 = k) || l.any (fun n => idOf n = k)) := by
  intro l
  induction l with
  | nil => simp
  | cons n ns ih =>
    intro init
    rw [List.foldl_cons, ih, jsMapInsert_any_key]
    by_cases h : idOf n = k <;> simp [h]

theorem jsMapInsert_ne_nil (m : List (String × α)) (k : String) (v : α) :
    jsMapInsert m k v ≠ [] := by
  unfold jsMapInsert
  split
  · rename_i hmem
    cases m with
    | nil => simp at hmem
    | cons p ps => simp
  · simp

theorem foldlInsert_ne_nil (idOf : β → String) (f : β → α) :
    ∀ (l : List β) (init : List (String × α)), init ≠ [] →
      l.foldl (fun acc n => jsMapInsert acc (idOf n) (f n)) init ≠ [] := by
  intro l
  induction l with
  | nil => intro init h; simpa using h
  | cons n ns ih =>
    intro init _
    rw [List.foldl_cons]
    exact ih _ (jsMapInsert_ne_nil init (idOf n) (f n))

theorem jsMapInsert_keyOk (idOf : α → String) (m : List (String × α)) (k : String)
    (v : α) (h : KeyOk idOf m) (hv : idOf v = k) : KeyOk idOf (jsMapInsert m k v) := by
  unfold jsMapInsert
  split
  · intro p hp
    obtain ⟨q, hq, hpq⟩ := List.mem_map.mp hp
    by_cases hqk : q.1 = k
    · simp only [hqk, if_pos rfl] at hpq
      subst hpq
      exact hv
    · simp only [if_neg hqk] at hpq
      subst hpq
      exact h q hq
  · intro p hp
    rcases List.mem_append.mp hp with h1 | h2
    · exact h p h1
    · simp only [List.mem_singleton] at h2
      subst h2
      exact hv

theorem foldlInsert_keyOk (idOf : β → String) (idv : α → String) (f : β → α)
    (hf : ∀ b, idv (f b) = idOf b) :
    ∀ (l : List β) (init : List (String × α)), KeyOk idv init →
      KeyOk idv (l.foldl (fun acc n => jsMapInsert acc (idOf n) (f n)) init) := by
  intro l
  induction l with
  | nil => intro init h; simpa using h
  | cons n ns ih =>
    intro init h
    rw [List.foldl_cons]
    exact ih _ (jsMapInsert_keyOk idv init (idOf n) (f n) h (hf n))

theorem jsMapGet_eq_some_mem (m : List (String × α)) (k : String) (v : α)
    (h : jsMapGet m k = some v) : (k, v) ∈ m := by
  unfold jsMapGet at h
  cases hf : m.find? (fun p => p.1 = k) with
  | none => rw [hf] at h; simp at h
  | some p =>
    rw [hf] at h
    have hmem := List.mem_of_find?_eq_some hf
    have hkey := List.find?_some hf
    simp only [decide_eq_true_eq] at hkey
    obtain ⟨k1, v1⟩ := p
    have hk1 : k1 = k := by simpa using hkey
    have hv1 : v1 = v := by simpa using h
    subst hk1
    subst hv1
    exact hmem

theorem jsMapGet_id (idOf : α → String) (m : List (String × α)) (hm : KeyOk idOf m)
    (k : String) (v : α) (h : jsMapGet m k = some v) : idOf v = k :=
  hm (k, v) (jsMapGet_eq_some_mem m k v h)

theorem jsMapGet_isSome_of_mem_values (idOf : α → String) (m : List (String × α))
    (hm : KeyOk idOf m) (v : α) (h : v ∈ jsMapValues m) :
    (jsMapGet m (idOf v)).isSome := by
  obtain ⟨p, hp, hpv⟩ := List.mem_map.mp h
  rw [jsMapGet_isSome_any]
  have : idOf v = p.1 := hpv ▸ hm p hp
  rw [this]
  exact List.any_eq_true.mpr ⟨p, hp, by simp⟩

theorem buildAQPTree_node (m : List (String × AQPStored)) (edges : List GraphEdge)
    (fuel : Nat) (r : AQPStored) : (buildAQPTree m edges fuel r).node = r := by
  cases fuel <;> rfl

theorem buildNXTree_id (m : List (String × NXNode)) (edges : List GraphEdge)
    (fuel : Nat) (n : NXNode) : (buildNXTree m edges fuel n).id = n.id := by
  cases fuel <;> rfl

/-- Linking is insensitive to edges with a missing endpoint: building over
the edge list pre-filtered to the edges whose two endpoints are in the map
yields the same tree (an edge with a missing target is dropped by the
`filterMap`, and an edge with a missing source can never equal a built
node's id, every built node coming from the map). -/
theorem buildLinked_filter_valid (idOf : α → String) (mkT : α → List τ → τ)
    (m : List (String × α)) (edges : List GraphEdge) (hm : KeyOk idOf m) :
    ∀ (fuel : Nat) (r : α), (jsMapGet m (idOf r)).isSome →
      buildLinked idOf mkT m (edges.filter (edgeInMap m)) fuel r
        = buildLinked idOf mkT m edges fuel r := by
  intro fuel
  induction fuel with
  | zero => intro r _; rfl
  | succ fuel ih =>
    intro r hr
    have inner : ∀ es : List GraphEdge,
        ((es.filter (edgeInMap m)).filter (fun e => e.source = idOf r)).filterMap
          (fun e => (jsMapGet m e.target).map
            (buildLinked idOf mkT m (edges.filter (edgeInMap m)) fuel))
        = (es.filter (fun e => e.source = idOf r)).filterMap
            (fun e => (jsMapGet m e.target).map (buildLinked idOf mkT m edges fuel)) := by
      intro es
      induction es with
      | nil => rfl
      | cons e es ihe =>
        by_cases hsrc : e.source = idOf r
        · cases ht : jsMapGet m e.target with
          | some v =>
            have hval : edgeInMap m e = true := by
              unfold edgeInMap
              rw [hsrc, ht]
              simpa using hr
            have hidv : idOf v = e.target := jsMapGet_id idOf m hm e.target v ht
            have hvsome : (jsMapGet m (idOf v)).isSome := by rw [hidv, ht]; rfl
            rw [List.filter_cons_of_pos hval,
              List.filter_cons_of_pos (by simpa using hsrc),
              List.filter_cons_of_pos (by simpa using hsrc)]
            simp only [List.filterMap_cons, ht, Option.map_some']
            rw [ihe, ih v hvsome]
          | none =>
            have hval : ¬ (edgeInMap m e = true) := by
              unfold edgeInMap
              rw [ht]
              simp
            rw [List.filter_cons_of_neg hval,
              List.filter_cons_of_pos (by simpa using hsrc)]
            simp only [List.filterMap_cons, ht]
            exact ihe
        · by_cases hval : edgeInMap m e = true
          · rw [List.filter_cons_of_pos hval,
              List.filter_cons_of_neg (by simpa using hsrc),
              List.filter_cons_of_neg (by simpa using hsrc)]
            exact ihe
          · rw [List.filter_cons_of_neg hval,
              List.filter_cons_of_neg (by simpa using hsrc)]
            exact ihe
    simp only [buildLinked]
    exact congrArg (mkT r) (inner edges)

/-! ## Stable-sort lemmas -/

theorem insertStable_perm (cmp : α → α → Int) (x : α) (l : List α) :
    List.Perm (insertStable cmp x l) (x :: l) := by
  induction l with
  | nil => simp [insertStable]
  | cons y ys ih =>
    simp only [insertStable]
    split
    · exact List.Perm.refl _
    · exact (ih.cons y).trans (List.Perm.swap x y ys)

theorem sortStable_foldl_perm (cmp : α → α → Int) :
    ∀ (l acc : List α),
      List.Perm (l.foldl (fun a x => insertStable cmp x a) acc) (acc ++ l) := by
  intro l
  induction l with
  | nil => simp
  | cons x xs ih =>
    intro acc
    have h1 : List.Perm ((x :: xs).foldl (fun a y => insertStable cmp y a) acc)
        (insertStable cmp x acc ++ xs) := by
      simpa [List.foldl_cons] using ih (insertStable cmp x acc)
    have h2 : List.Perm (insertStable cmp x acc ++ xs) ((x :: acc) ++ xs) :=
      (insertStable_perm cmp x acc).append_right xs
    have h3 : List.Perm ((x :: acc) ++ xs) (acc ++ x :: xs) := by
      exact List.perm_middle.symm
    exact h1.trans (h2.trans h3)

theorem sortStable_perm (cmp : α → α → Int) (l : List α) :
    List.Perm (sortStable cmp l) l := by
  simpa using sortStable_foldl_perm cmp l []

theorem positionCompare_eq_key (a b : PosTree) (ha : (posOf a).isSome)
    (hb : (posOf b).isSome) : positionCompare a b = posKey a - posKey b := by
  obtain ⟨p, hp⟩ := Option.isSome_iff_exists.mp ha
  obtain ⟨q, hq⟩ := Option.isSome_iff_exists.mp hb
  simp [positionCompare, posKey, hp, hq]

theorem insertStable_sorted (x : PosTree) (hx : (posOf x).isSome) :
    ∀ acc : List PosTree, (∀ t ∈ acc, (posOf t).isSome) →
      acc.Pairwise (fun a b => posKey a ≤ posKey b) →
      (insertStable positionCompare x acc).Pairwise (fun a b => posKey a ≤ posKey b)
  | [], _, _ => by simp [insertStable]
  | y :: ys, hacc, hsort => by
    have hy : (posOf y).isSome := hacc y (by simp)
    have hkey := positionCompare_eq_key x y hx hy
    obtain ⟨hyz, hys⟩ := List.pairwise_cons.mp hsort
    rw [insertStable]
    by_cases hlt : positionCompare x y < 0
    · rw [if_pos hlt]
      have hxy : posKey x < posKey y := by omega
      rw [List.pairwise_cons]
      refine ⟨?_, hsort⟩
      intro z hz
      rcases List.mem_cons.mp hz with rfl | hz'
      · exact le_of_lt hxy
      · exact le_trans (le_of_lt hxy) (hyz z hz')
    · rw [if_neg hlt]
      have hyx : posKey y ≤ posKey x := by omega
      rw [List.pairwise_cons]
      refine ⟨?_, insertStable_sorted x hx ys (fun t ht => hacc t (by simp [ht])) hys⟩
      intro z hz
      have hz' := (insertStable_perm positionCompare x ys).mem_iff.mp hz
      rcases List.mem_cons.mp hz' with rfl | hz''
      · exact hyx
      · exact hyz z hz''

theorem sortStable_sorted_aux :
    ∀ (l acc : List PosTree), (∀ t ∈ l, (posOf t).isSome) →
      (∀ t ∈ acc, (posOf t).isSome) →
      acc.Pairwise (fun a b => posKey a ≤ posKey b) →
      (l.foldl (fun a x => insertStable positionCompare x a) acc).Pairwise
        (fun a b => posKey a ≤ posKey b)
  | [], _, _, _, hs => by simpa using hs
  | x :: xs, acc, hl, hacc, hs => by
    rw [List.foldl_cons]
    refine sortStable_sorted_aux xs (insertStable positionCompare x acc)
      (fun t ht => hl t (by simp [ht])) ?_ ?_
    · intro t ht
      have ht' := (insertStable_perm positionCompare x acc).mem_iff.mp ht
      rcases List.mem_cons.mp ht' with rfl | ht''
      · exact hl t (by simp)
      · exact hacc t ht''
    · exact insertStable_sorted x (hl x (by simp)) acc hacc hs

/-- A fully tagged child list comes out of the sort ordered by the fixed
ranking `l < c < r < s`. -/
theorem sortStable_sorted (l : List PosTree) (hl : ∀ t ∈ l, (posOf t).isSome) :
    (sortStable positionCompare l).Pairwise (fun a b => posKey a ≤ posKey b) :=
  sortStable_sorted_aux l [] hl (by simp) (by simp)

theorem insertStable_filter_pos (x : PosTree) (hx : (posOf x).isSome) (p : Position) :
    ∀ acc : List PosTree, (∀ t ∈ acc, (posOf t).isSome) →
      acc.Pairwise (fun a b => posKey a ≤ posKey b) →
      (insertStable positionCompare x acc).filter (fun t => posOf t = some p)
        = acc.filter (fun t => posOf t = some p)
          ++ (if posOf x = some p then [x] else []) := by
  intro acc
  induction acc with
  | nil =>
    intro _ _
    by_cases hxp : posOf x = some p <;> simp [insertStable, hxp]
  | cons y ys ih =>
    intro hacc hsort
    have hy : (posOf y).isSome := hacc y (by simp)
    have hkey := positionCompare_eq_key x y hx hy
    obtain ⟨hyz, hys⟩ := List.pairwise_cons.mp hsort
    rw [insertStable]
    by_cases hlt : positionCompare x y < 0
    · rw [if_pos hlt]
      have hxy : posKey x < posKey y := by omega
      by_cases hxp : posOf x = some p
      · have hnone : ∀ z ∈ y :: ys, ¬(posOf z = some p) := by
          intro z hz hzp
          have hkz : posKey z = posKey x := by simp [posKey, hzp, hxp]
          rcases List.mem_cons.mp hz with rfl | hz'
          · omega
          · have := hyz z hz'
            omega
        have hfil : (y :: ys).filter (fun t => posOf t = some p) = [] := by
          rw [List.filter_eq_nil_iff]
          intro z hz
          simpa using hnone z hz
        rw [List.filter_cons_of_pos (by simpa using hxp), hfil, if_pos hxp]
        rfl
      · rw [List.filter_cons_of_neg (by simpa using hxp), if_neg hxp,
          List.append_nil]
    · rw [if_neg hlt]
      have htail := ih (fun t ht => hacc t (by simp [ht])) hys
      by_cases hyp : posOf y = some p
      · rw [List.filter_cons_of_pos (by simpa using hyp),
          List.filter_cons_of_pos (by simpa using hyp), htail]
        rfl
      · rw [List.filter_cons_of_neg (by simpa using hyp),
          List.filter_cons_of_neg (by simpa using hyp)]
        exact htail

theorem sortStable_filter_aux (p : Position) :
    ∀ (l acc : List PosTree), (∀ t ∈ l, (posOf t).isSome) →
      (∀ t ∈ acc, (posOf t).isSome) →
      acc.Pairwise (fun a b => posKey a ≤ posKey b) →
      (l.foldl (fun a x => insertStable positionCompare x a) acc).filter
          (fun t => posOf t = some p)
        = acc.filter (fun t => posOf t = some p)
            ++ l.filter (fun t => posOf t = some p)
  | [], acc, _, _, _ => by simp
  | x :: xs, acc, hl, hacc, hs => by
    rw [List.foldl_cons]
    rw [sortStable_filter_aux p xs (insertStable positionCompare x acc)
      (fun t ht => hl t (by simp [ht]))
      (fun t ht => by
        have ht' := (insertStable_perm positionCompare x acc).mem_iff.mp ht
        rcases List.mem_cons.mp ht' with rfl | ht''
        · exact hl t (by simp)
        · exact hacc t ht'')
      (insertStable_sorted x (hl x (by simp)) acc hacc hs)]
    rw [insertStable_filter_pos x (hl x (by simp)) p acc hacc hs]
    rw [List.append_assoc]
    congr 1
    by_cases hxp : posOf x = some p
    · rw [if_pos hxp, List.filter_cons_of_pos (by simpa using hxp)]
      rfl
    · rw [if_neg hxp, List.filter_cons_of_neg (by simpa using hxp)]
      rfl

/-- Stability on fully tagged lists: the elements of each position class
keep their relative input order. -/
theorem sortStable_stable (l : List PosTree) (hl : ∀ t ∈ l, (posOf t).isSome)
    (p : Position) :
    (sortStable positionCompare l).filter (fun t => posOf t = some p)
      = l.filter (fun t => posOf t = some p) := by
  simpa using sortStable_filter_aux p l [] hl (by simp) (by simp)

theorem insertStable_untagged (x : PosTree) (hx : posOf x = none) :
    ∀ acc : List PosTree, insertStable positionCompare x acc = acc ++ [x]
  | [] => rfl
  | y :: ys => by
    have h0 : positionCompare x y = 0 := by simp [positionCompare, hx]
    rw [insertStable, if_neg (by omega), insertStable_untagged x hx ys]
    rfl

theorem sortStable_untagged_aux :
    ∀ (l acc : List PosTree), (∀ t ∈ l, posOf t = none) →
      l.foldl (fun a x => insertStable positionCompare x a) acc = acc ++ l
  | [], acc, _ => by simp
  | x :: xs, acc, hl => by
    rw [List.foldl_cons, insertStable_untagged x (hl x (by simp)) acc,
      sortStable_untagged_aux xs (acc ++ [x]) (fun t ht => hl t (by simp [ht]))]
    simp

/-- With no position tags, every comparison is the coerced `NaN`, i.e.
"equal", and the stable sort leaves the list unchanged. -/
theorem sortStable_untagged (l : List PosTree) (hl : ∀ t ∈ l, posOf t = none) :
    sortStable positionCompare l = l := by
  simpa using sortStable_untagged_aux l [] hl

/-! ## Builder child-order lemmas -/

theorem nxMapOf_keyOk (nodes : List NXNode) : KeyOk NXNode.id (nxMapOf nodes) := by
  unfold nxMapOf
  exact foldlInsert_keyOk NXNode.id NXNode.id (fun n => n) (fun _ => rfl) nodes []
    (fun p hp => absurd hp (List.not_mem_nil p))

theorem buildNXTree_children_ids_aux (nodes : List NXNode) (n : NXNode)
    (E : List GraphEdge) (fuel : Nat) :
    ∀ es : List GraphEdge,
      ((es.filter (fun e => e.source = n.id)).filterMap
        (fun e => (jsMapGet (nxMapOf nodes) e.target).map
          (buildLinked NXNode.id nxMk (nxMapOf nodes) E fuel))).map QTreeNode.id
      = (es.filter (fun e =>
          decide (e.source = n.id) && (jsMapGet (nxMapOf nodes) e.target).isSome)).map
          (fun e => e.target) := by
  intro es
  induction es with
  | nil => rfl
  | cons e es ihe =>
    by_cases hsrc : e.source = n.id
    · cases ht : jsMapGet (nxMapOf nodes) e.target with
      | some v =>
        have hid : v.id = e.target :=
          jsMapGet_id NXNode.id (nxMapOf nodes) (nxMapOf_keyOk nodes) e.target v ht
        rw [List.filter_cons_of_pos (by simpa using hsrc),
          List.filter_cons_of_pos (by simp [hsrc, ht])]
        simp only [List.filterMap_cons, ht, Option.map_some', List.map_cons]
        rw [ihe]
        have hhead : (buildLinked NXNode.id nxMk (nxMapOf nodes) E fuel v).id = e.target := by
          rw [← hid]
          exact buildNXTree_id (nxMapOf nodes) E fuel v
        rw [hhead]
      | none =>
        rw [List.filter_cons_of_pos (by simpa using hsrc),
          List.filter_cons_of_neg (by simp [ht])]
        simp only [List.filterMap_cons, ht]
        exact ihe
    · rw [List.filter_cons_of_neg (by simpa using hsrc),
        List.filter_cons_of_neg (by simp [hsrc])]
      exact ihe

/-- Each built node's children are exactly the targets of its outgoing
edges with a resolvable target, in edge-array order. -/
theorem buildNXTree_children_ids (nodes : List NXNode) (edges : List GraphEdge)
    (fuel : Nat) (n : NXNode) :
    (buildNXTree (nxMapOf nodes) edges (fuel + 1) n).children.map QTreeNode.id
      = (edges.filter (fun e =>
          decide (e.source = n.id) && (jsMapGet (nxMapOf nodes) e.target).isSome)).map
          (fun e => e.target) := by
  have h := buildNXTree_children_ids_aux nodes n edges fuel edges
  simpa [buildNXTree, buildLinked, nxMk, QTreeNode.children] using h

/-! ## Edit-tracking lemmas -/

mutual
/-- Updating id `i` changes the type of the first depth-first `i`-node to
the new type (the first depth-first match never sits below another
`i`-node, so `updateTreeData` always reaches it). -/
theorem foundType_update_self (i nt : String) :
    ∀ t : QTreeNode,
      (findNodeById i (updateTreeData (some i) nt t)).map QTreeNode.type
        = (findNodeById i t).map (fun _ => nt)
  | .mk i' ty nm lf cs => by
    by_cases hi : i' = i
    · subst hi
      simp [updateTreeData, findNodeById, QTreeNode.type]
    · simp only [updateTreeData, if_neg (fun h => hi (Option.some.inj h)),
        findNodeById, if_neg hi]
      exact foundTypes_update_self i nt cs
theorem foundTypes_update_self (i nt : String) :
    ∀ cs : List QTreeNode,
      (findInChildren i (updateChildren (some i) nt cs)).map QTreeNode.type
        = (findInChildren i cs).map (fun _ => nt)
  | [] => by simp [updateChildren, findInChildren]
  | c :: cs => by
    have hc := foundType_update_self i nt c
    simp only [updateChildren, findInChildren]
    cases h1 : findNodeById i (updateTreeData (some i) nt c) with
    | some r =>
      cases h2 : findNodeById i c with
      | some r2 =>
        rw [h1, h2] at hc
        simpa using hc
      | none => rw [h1, h2] at hc; simp at hc
    | none =>
      cases h2 : findNodeById i c with
      | some r2 => rw [h1, h2] at hc; simp at hc
      | none => exact foundTypes_update_self i nt cs
end

mutual
/-- Updating any other id (or the `undefined` id) leaves the type of the
first depth-first `i`-node unchanged. -/
theorem foundType_update_other (i : String) (nodeId : Option String) (nt : String)
    (h : nodeId ≠ some i) :
    ∀ t : QTreeNode,
      (findNodeById i (updateTreeData nodeId nt t)).map QTreeNode.type
        = (findNodeById i t).map QTreeNode.type
  | .mk i' ty nm lf cs => by
    by_cases hm : some i' = nodeId
    · have hii : i' ≠ i := by
        intro he
        exact h (he ▸ hm.symm)
      simp [updateTreeData, if_pos hm, findNodeById, if_neg hii]
    · simp only [updateTreeData, if_neg hm, findNodeById]
      by_cases hii : i' = i
      · simp [hii, QTreeNode.type]
      · simp only [if_neg hii]
        exact foundTypes_update_other i nodeId nt h cs
theorem foundTypes_update_other (i : String) (nodeId : Option String) (nt : String)
    (h : nodeId ≠ some i) :
    ∀ cs : List QTreeNode,
      (findInChildren i (updateChildren nodeId nt cs)).map QTreeNode.type
        = (findInChildren i cs).map QTreeNode.type
  | [] => by simp [updateChildren, findInChildren]
  | c :: cs => by
    have hc := foundType_update_other i nodeId nt h c
    simp only [updateChildren, findInChildren]
    cases h1 : findNodeById i (updateTreeData nodeId nt c) with
    | some r =>
      cases h2 : findNodeById i c with
      | some r2 =>
        rw [h1, h2] at hc
        simpa using hc
      | none => rw [h1, h2] at hc; simp at hc
    | none =>
      cases h2 : findNodeById i c with
      | some r2 => rw [h1, h2] at hc; simp at hc
      | none => exact foundTypes_update_other i nodeId nt h cs
end

theorem isSome_of_map_eq {f g : QTreeNode → String} {o1 o2 : Option QTreeNode}
    (h : o1.map f = o2.map g) : o1.isSome = o2.isSome := by
  have := congrArg Option.isSome h
  simpa using this

theorem map_const_of_isSome_eq {o1 o2 : Option QTreeNode} (x : String)
    (h : o1.isSome = o2.isSome) :
    o1.map (fun _ => x) = o2.map (fun _ => x) := by
  cases o1 <;> cases o2 <;> simp_all

/-- Last edit wins: after applying a pending-edits list, the displayed type
of the node found at id `i` is the `newType` of the last list entry
referencing `i` (or the original type when no entry references `i`). -/
theorem applyEdits_lastWins (i : String) :
    ∀ (cs : List PendingChange) (t : QTreeNode),
      (findNodeById i (applyEdits t cs)).map QTreeNode.type
        = match (cs.filter (fun c => c.id = some i)).getLast? with
          | some c => (findNodeById i t).map (fun _ => c.newType)
          | none => (findNodeById i t).map QTreeNode.type
  | [], t => by simp [applyEdits]
  | c :: cs, t => by
    have ih := applyEdits_lastWins i cs (applyChange t c)
    have hstep : applyEdits t (c :: cs) = applyEdits (applyChange t c) cs := rfl
    rw [hstep, ih]
    by_cases hc : c.id = some i
    · have hself : (findNodeById i (applyChange t c)).map QTreeNode.type
          = (findNodeById i t).map (fun _ => c.newType) := by
        have := foundType_update_self i c.newType t
        rw [applyChange, hc]
        exact this
      have hsome := isSome_of_map_eq hself
      rw [List.filter_cons_of_pos (by simpa using hc)]
      cases hf : cs.filter (fun x => x.id = some i) with
      | nil =>
        simp only [List.getLast?_nil, List.getLast?_singleton]
        exact hself
      | cons d ds =>
        rw [List.getLast?_cons_cons]
        cases hL : (d :: ds).getLast? with
        | none => simp at hL
        | some c2 => exact map_const_of_isSome_eq c2.newType hsome
    · have hother : (findNodeById i (applyChange t c)).map QTreeNode.type
          = (findNodeById i t).map QTreeNode.type := by
        have := foundType_update_other i c.id c.newType hc t
        rw [applyChange]
        exact this
      have hsome := isSome_of_map_eq hother
      rw [List.filter_cons_of_neg (by simpa using hc)]
      cases hL : (cs.filter (fun x => x.id = some i)).getLast? with
      | none => exact hother
      | some c2 => exact map_const_of_isSome_eq c2.newType hsome

theorem editStep_preserves_inv (r : Option QTreeNode) (s : PanelState) (op : EditOp)
    (h : EditInv r s) : EditInv r (editStep s op) := by
  obtain ⟨h1, h2⟩ := h
  cases op with
  | click d => exact ⟨h1, h2⟩
  | scanChange v => cases v <;> exact ⟨h1, h2⟩
  | joinChange v => cases v <;> exact ⟨h1, h2⟩
  | confirm =>
    simp only [editStep]
    unfold confirmChange
    split
    · exact ⟨h1, h2⟩
    · split
      · exact ⟨h1, h2⟩
      · split
        · refine ⟨h1, ?_⟩
          simp only [h2]
          cases r with
          | none => rfl
          | some t0 =>
            simp [applyEdits, List.foldl_append, applyChange]
        · exact ⟨h1, h2⟩

theorem runEdits_inv (r : Option QTreeNode) (s : PanelState) (h : EditInv r s)
    (ops : List EditOp) : EditInv r (runEdits s ops) := by
  induction ops generalizing s with
  | nil => simpa [runEdits] using h
  | cons op rest ih =>
    have hstep := editStep_preserves_inv r s op h
    simpa [runEdits] using ih (editStep s op) hstep

theorem ingest_inv (g : NetworkXData) :
    EditInv (convertNetworkXToTree g) (ingestQepData initialPanelState g) := by
  constructor
  · rfl
  · cases hr : convertNetworkXToTree g <;>
      simp [ingestQepData, initialPanelState, hr, applyEdits]

theorem editStep_pendingAppendOnly (s : PanelState) (op : EditOp) :
    (editStep s op).pendingChanges = s.pendingChanges
    ∨ ∃ c, (editStep s op).pendingChanges = s.pendingChanges ++ [c] := by
  cases op with
  | click d => exact Or.inl rfl
  | scanChange v => cases v <;> exact Or.inl rfl
  | joinChange v => cases v <;> exact Or.inl rfl
  | confirm =>
    simp only [editStep]
    unfold confirmChange
    split
    · exact Or.inl rfl
    · split
      · exact Or.inl rfl
      · split
        · exact Or.inr ⟨_, rfl⟩
        · exact Or.inl rfl

/-! ## Claim theorems -/

/-- Claim C1: for every HTTP-success response to the reconciliation call
whose body lacks `updated_networkx_object`, the operation surfaces the
malformed-response error and aborts with all prior state unchanged — the
working tree is not altered, `pendingChanges` is not cleared, and none of
the comparison fields (modified SQL, costs, hints, generated AQP tree) is
set; the resulting state differs from the prior state only in the raised
error notification. -/
theorem reconcileMissingGraphAborts (s : PanelState) (body : ModifyResponseBody)
    (h : body.updated_networkx_object = none) :
    generateAQPResponse s (.ok body) = { s with showErrorNotification := true } := by
  simp [generateAQPResponse, h]

theorem reconcileMissingGraphAbortsWitness :
    (ModifyResponseBody.updated_networkx_object
        { modified_sql_query := some "SELECT 1"
        , cost_comparison := some { original_cost := some 7, modified_cost := some 5 }
        , updated_networkx_object := none
        , hints := some [("SeqScan_c", "SeqScan(c)")] } = none)
    ∧ generateAQPResponse editedState
        (.ok { modified_sql_query := some "SELECT 1"
             , cost_comparison := some { original_cost := some 7, modified_cost := some 5 }
             , updated_networkx_object := none
             , hints := some [("SeqScan_c", "SeqScan(c)")] })
        = { editedState with showErrorNotification := true } :=
  ⟨rfl, reconcileMissingGraphAborts editedState _ rfl⟩

/-- Claim C2: whenever the list of pending edits is empty, `generateAQP`
raises the no-changes notice and issues no HTTP request (the request
component of the split is `none`), leaving the rest of the state alone. -/
theorem emptyPendingNoRequest (s : PanelState) (q : String)
    (h : s.pendingChanges = []) :
    (generateAQPRequest s q).1 = none
    ∧ (generateAQPRequest s q).2 = { s with showErrorNotification := true } := by
  constructor <;> simp [generateAQPRequest, h]

/-- Claim C3: at every point of the edit-tracking lifecycle (ingestion
followed by any sequence of node clicks, type selections and confirms) the
working tree equals the ingested tree with every current pending edit
applied in list order; every step either leaves the pending list unchanged
or appends one entry at the end (never reordering or deduplicating); the
displayed type of a node is the `newType` of the last entry referencing its
id; and the same node id can occur in more than one entry of a reachable
pending list. -/
theorem editTrackingInvariant :
    (∀ (g : NetworkXData) (ops : List EditOp),
        (runEdits (ingestQepData initialPanelState g) ops).qepTreeData
          = convertNetworkXToTree g
      ∧ (runEdits (ingestQepData initialPanelState g) ops).modifiedTreeData
          = (convertNetworkXToTree g).map
              (fun t0 =>
                applyEdits t0 (runEdits (ingestQepData initialPanelState g) ops).pendingChanges))
  ∧ (∀ (s : PanelState) (op : EditOp),
        (editStep s op).pendingChanges = s.pendingChanges
      ∨ ∃ c, (editStep s op).pendingChanges = s.pendingChanges ++ [c])
  ∧ (∀ (t : QTreeNode) (cs : List PendingChange) (i : String),
        (findNodeById i (applyEdits t cs)).map QTreeNode.type
          = match (cs.filter (fun c => c.id = some i)).getLast? with
            | some c => (findNodeById i t).map (fun _ => c.newType)
            | none => (findNodeById i t).map QTreeNode.type)
  ∧ (∃ ops : List EditOp,
        (runEdits (ingestQepData initialPanelState demoGraph) ops).pendingChanges.map
            (fun c => (c.id, c.newType))
          = [(some "2", "Index Scan"), (some "2", "Tid Scan")]) := by
  refine ⟨fun g ops => runEdits_inv _ _ (ingest_inv g) ops,
    editStep_pendingAppendOnly, fun t cs i => applyEdits_lastWins i cs t, ?_⟩
  refine ⟨[ .click { id := some "2", type := some "Seq Scan", join_or_scan := some "Scan" }
          , .scanChange (some "Index Scan"), .confirm
          , .click { id := some "2", type := some "Index Scan", join_or_scan := some "Scan" }
          , .scanChange (some "Tid Scan"), .confirm ], ?_⟩
  decide

/-- Claim C4 counterexample: clicking a node whose role is Unknown is not a
no-op on the selection state — the selection changes from `none` to the
clicked node's data. -/
theorem unknownClickChangesSelection :
    (handleNodeClick initialPanelState
        { id := some "5", type := some "Aggregate", join_or_scan := some "Unknown" }).selectedNode
      ≠ initialPanelState.selectedNode := by
  decide

/-- Claim C4 (amended): clicking a node always replaces the selection with
that node's data, so an Unknown-role click does change the selection state;
such a selection is however inert: `confirmChange` after it — with or
without a type chosen from the menu — changes nothing. -/
theorem unknownSelectionInert (s : PanelState) (d : ClickData) (v : Option String)
    (h : jsOr d.join_or_scan "Unknown" = "Unknown") :
    (handleNodeClick s d).selectedNode ≠ none
    ∧ confirmChange (handleNodeClick s d) = handleNodeClick s d
    ∧ confirmChange (handleScanChange (handleNodeClick s d) v)
        = handleScanChange (handleNodeClick s d) v := by
  refine ⟨by simp [handleNodeClick], rfl, ?_⟩
  cases v with
  | none => rfl
  | some value =>
    simp only [handleScanChange, handleNodeClick, confirmChange, h]
    simp

/-- Claim C5 counterexample: on a graph with no `isRoot` flag and a unique
zero-indegree node, ingestion does not select that node — it returns the
first node in map iteration order instead, so the spec's three-step rule
(with its zero-indegree middle step) disagrees with the code. -/
theorem rootZeroIndegreeNotUsed :
    specRootId rootFallbackGraph = some "a"
    ∧ (convertAQPToTree rootFallbackGraph).map (fun t => t.node.id) = some "b"
    ∧ (convertAQPToTree rootFallbackGraph).map (fun t => t.node.id)
        ≠ specRootId rootFallbackGraph := by
  refine ⟨by decide, by decide, by decide⟩

theorem convertAQPToTree_root_id (d : AQPData) :
    (convertAQPToTree d).map (fun t => t.node.id)
      = (match (jsMapValues (aqpMapOf d.nodes)).find? (fun n => n.isRoot) with
         | some r => some r.id
         | none => (jsMapValues (aqpMapOf d.nodes)).head?.map AQPStored.id) := by
  simp only [convertAQPToTree]
  cases hf : (jsMapValues (aqpMapOf d.nodes)).find? (fun n => n.isRoot) with
  | some r => simp [buildAQPTree_node]
  | none =>
    cases hh : (jsMapValues (aqpMapOf d.nodes)).head? with
    | none => simp
    | some r => simp [buildAQPTree_node]

/-- Claim C5 (amended): the returned root is the first map value flagged
`isRoot` when one exists, and otherwise directly the first node in map
iteration order; the edge topology is never consulted (no zero-indegree
inference), so replacing the edge list with any other edge list leaves the
chosen root's id unchanged. -/
theorem rootSelectionActual :
    ∀ d : AQPData,
      ((convertAQPToTree d).map (fun t => t.node.id)
        = (match (jsMapValues (aqpMapOf d.nodes)).find? (fun n => n.isRoot) with
           | some r => some r.id
           | none => (jsMapValues (aqpMapOf d.nodes)).head?.map AQPStored.id))
    ∧ (∀ edges2 : List GraphEdge,
        (convertAQPToTree { d with edges := edges2 }).map (fun t => t.node.id)
          = (convertAQPToTree d).map (fun t => t.node.id)) := by
  intro d
  refine ⟨convertAQPToTree_root_id d, fun edges2 => ?_⟩
  rw [convertAQPToTree_root_id, convertAQPToTree_root_id]

/-- Claim C6 counterexample: after a confirmed type change, the success path
of the reconciliation (the code the spec describes as `clearPending` being
"called after a successful reconciliation") empties `pendingChanges` but
leaves the working tree with the edit applied — node `"2"` still shows
`"Index Scan"` while a fresh ingestion of the original graph shows
`"Seq Scan"` — so the working tree is not deep-equal to a fresh ingestion. -/
theorem successKeepsEditedWorkingTree :
    reconciledState.pendingChanges = []
    ∧ (reconciledState.modifiedTreeData.bind (findNodeById "2")).map QTreeNode.type
        = some "Index Scan"
    ∧ ((convertNetworkXToTree demoGraph).bind (findNodeById "2")).map QTreeNode.type
        = some "Seq Scan"
    ∧ reconciledState.modifiedTreeData ≠ convertNetworkXToTree demoGraph := by
  refine ⟨by decide, by decide, by decide, fun h => ?_⟩
  exact absurd (congrArg (fun o => (o.bind (findNodeById "2")).map QTreeNode.type) h)
    (by decide)

/-- Claim C6 (amended): there is no operation that both empties
`pendingChanges` and resets the working tree.  The reconciliation success
path empties `pendingChanges` and leaves both trees untouched, while
re-ingesting plan data resets both trees to a fresh ingestion of that data
without clearing `pendingChanges`. -/
theorem successClearsPendingOnly (s : PanelState) (body : ModifyResponseBody)
    (g : AQPData) (h : body.updated_networkx_object = some g) :
    ((generateAQPResponse s (.ok body)).pendingChanges = []
      ∧ (generateAQPResponse s (.ok body)).modifiedTreeData = s.modifiedTreeData
      ∧ (generateAQPResponse s (.ok body)).qepTreeData = s.qepTreeData)
    ∧ (∀ (s2 : PanelState) (g2 : NetworkXData),
        (ingestQepData s2 g2).modifiedTreeData = convertNetworkXToTree g2
      ∧ (ingestQepData s2 g2).qepTreeData = convertNetworkXToTree g2
      ∧ (ingestQepData s2 g2).pendingChanges = s2.pendingChanges) := by
  refine ⟨⟨?_, ?_, ?_⟩, fun s2 g2 => ⟨rfl, rfl, rfl⟩⟩ <;>
    simp [generateAQPResponse, h]

theorem successClearsPendingOnlyWitness :
    (okResponseBody.updated_networkx_object = some okAqpGraph)
    ∧ (((generateAQPResponse editedState (.ok okResponseBody)).pendingChanges = []
        ∧ (generateAQPResponse editedState (.ok okResponseBody)).modifiedTreeData
            = editedState.modifiedTreeData
        ∧ (generateAQPResponse editedState (.ok okResponseBody)).qepTreeData
            = editedState.qepTreeData)
      ∧ (∀ (s2 : PanelState) (g2 : NetworkXData),
          (ingestQepData s2 g2).modifiedTreeData = convertNetworkXToTree g2
        ∧ (ingestQepData s2 g2).qepTreeData = convertNetworkXToTree g2
        ∧ (ingestQepData s2 g2).pendingChanges = s2.pendingChanges)) :=
  ⟨rfl, successClearsPendingOnly editedState okResponseBody okAqpGraph rfl⟩

theorem unknownSelectionInertWitness :
    (jsOr unknownClick.join_or_scan "Unknown" = "Unknown")
    ∧ ((handleNodeClick initialPanelState unknownClick).selectedNode ≠ none
      ∧ confirmChange (handleNodeClick initialPanelState unknownClick)
          = handleNodeClick initialPanelState unknownClick
      ∧ confirmChange (handleScanChange (handleNodeClick initialPanelState unknownClick)
            (some "Index Scan"))
          = handleScanChange (handleNodeClick initialPanelState unknownClick)
              (some "Index Scan")) :=
  ⟨rfl, unknownSelectionInert initialPanelState unknownClick (some "Index Scan") rfl⟩

/-- Claim C7: each ingested node's children are the targets of its outgoing
edges in edge-array order (edges with an unresolvable target adding
nothing); the child sort of the position-tagged draft is a permutation;
on fully tagged child lists it orders children by the fixed ranking
`l < c < r < s` while keeping each position class in input order
(stability); and on untagged child lists it leaves the insertion order
unchanged. -/
theorem childrenOrderAndPositionSort :
    (∀ (nodes : List NXNode) (edges : List GraphEdge) (fuel : Nat) (n : NXNode),
        (buildNXTree (nxMapOf nodes) edges (fuel + 1) n).children.map QTreeNode.id
          = (edges.filter (fun e =>
              decide (e.source = n.id) && (jsMapGet (nxMapOf nodes) e.target).isSome)).map
              (fun e => e.target))
  ∧ (∀ l : List PosTree, List.Perm (sortStable positionCompare l) l)
  ∧ (∀ l : List PosTree, (∀ t ∈ l, (posOf t).isSome) →
        (sortStable positionCompare l).Pairwise (fun a b => posKey a ≤ posKey b)
      ∧ (∀ p : Position, (sortStable positionCompare l).filter (fun t => posOf t = some p)
          = l.filter (fun t => posOf t = some p)))
  ∧ (∀ l : List PosTree, (∀ t ∈ l, posOf t = none) →
        sortStable positionCompare l = l) :=
  ⟨buildNXTree_children_ids, sortStable_perm positionCompare,
   fun l hl => ⟨sortStable_sorted l hl, sortStable_stable l hl⟩,
   sortStable_untagged⟩

theorem childrenOrderAndPositionSortWitness :
    ((∀ t ∈ taggedKids, (posOf t).isSome)
      ∧ (sortStable positionCompare taggedKids).Pairwise (fun a b => posKey a ≤ posKey b)
      ∧ (∀ p : Position, (sortStable positionCompare taggedKids).filter
            (fun t => posOf t = some p)
          = taggedKids.filter (fun t => posOf t = some p)))
    ∧ ((∀ t ∈ untaggedKids, posOf t = none)
      ∧ sortStable positionCompare untaggedKids = untaggedKids) :=
  ⟨⟨by decide, (childrenOrderAndPositionSort.2.2.1 taggedKids (by decide)).1,
    (childrenOrderAndPositionSort.2.2.1 taggedKids (by decide)).2⟩,
   ⟨by decide, childrenOrderAndPositionSort.2.2.2 untaggedKids (by decide)⟩⟩

/-- Claim C8 counterexample: for the ingested node `"2"` whose original
table string is `"customer"`, the modification request built by
`generateAQP` does not carry that string — the working tree drops the
`table` field at ingestion, so the request's `tables` entry is the constant
`"No tables"`. -/
theorem requestTablesNotOriginal :
    demoGraph.nodes.map NXNode.table = [none, some "customer"]
    ∧ ((generateAQPRequest editedState "select 1").1).map
        (fun r => r.modifications.map (fun m => m.tables)) = some [["No tables"]]
    ∧ (["No tables"] : List String) ≠ ["customer"] := by
  refine ⟨by decide, by decide, by decide⟩

theorem chunkFuel_join (n : Nat) :
    ∀ (fuel : Nat) (l : List Char), l.length ≤ fuel →
      (chunkFuel n fuel l).flatten = l
  | fuel, [], _ => by cases fuel <;> rfl
  | 0, c :: cs, h => by simp at h
  | fuel + 1, c :: cs, h => by
    have hlen : (cs.drop n).length ≤ fuel := by
      simp only [List.length_drop]
      simp only [List.length_cons] at h
      omega
    simp only [chunkFuel, List.flatten_cons, chunkFuel_join n fuel (cs.drop n) hlen]
    simp [List.take_append_drop]

theorem foldl_append_map_mk_data :
    ∀ (ls : List (List Char)) (acc : String),
      ((ls.map (fun l => (⟨l⟩ : String))).foldl (fun r s => r ++ s) acc).data
        = acc.data ++ ls.flatten
  | [], acc => by simp
  | a :: as, acc => by
    simp only [List.map_cons, List.foldl_cons, List.flatten_cons]
    rw [foldl_append_map_mk_data as (acc ++ ⟨a⟩)]
    simp

/-- Claim C8 (amended): the fixed-width wrapping never feeds the
reconciliation request, but not because the original strings are preserved
there: the working tree built by `convertNetworkXToTree` stores no `table`
field at all, so every modification's `tables` entry is the constant
`["No tables"]` regardless of the node's original table text.  The wrapping
itself is lossless (the wrapped lines concatenate back to the exact
unwrapped string), and in the AQP pipeline the wrapped lines are stored
only in the display tree. -/
theorem requestTablesConstant (s : PanelState) (q : String) (r : RequestBody)
    (h : (generateAQPRequest s q).1 = some r) :
    (∀ m ∈ r.modifications, m.tables = ["No tables"])
    ∧ (∀ (w : Nat) (str : String), String.join (chunkStr w str) = str)
    ∧ (∀ t : QTreeNode, t.tableField = none) := by
  refine ⟨?_, ?_, fun t => rfl⟩
  · intro m hm
    unfold generateAQPRequest at h
    by_cases hp : s.pendingChanges = []
    · rw [if_pos hp] at h
      simp at h
    · rw [if_neg hp] at h
      simp only [Option.some.injEq] at h
      subst h
      simp only [List.mem_map] at hm
      obtain ⟨c, _, hcm⟩ := hm
      subst hcm
      simp [buildModification, QTreeNode.tableField, jsOr]
  · intro w str
    apply String.ext
    unfold chunkStr
    show (String.join _).data = _
    unfold String.join
    rw [foldl_append_map_mk_data]
    simpa using chunkFuel_join w str.data.length str.data (le_refl _)

theorem requestTablesConstantWitness :
    ((generateAQPRequest editedState "select 1").1 = some demoRequestBody)
    ∧ ((∀ m ∈ demoRequestBody.modifications, m.tables = ["No tables"])
      ∧ (∀ (w : Nat) (str : String), String.join (chunkStr w str) = str)
      ∧ (∀ t : QTreeNode, t.tableField = none)) :=
  ⟨by decide, requestTablesConstant editedState "select 1" demoRequestBody (by decide)⟩

/-- Claim C9 (spec-modelled): once a Join node is the single order-change
selection, a node that is neither a Join node nor a same-parent sibling of
it is classified disabled, and clicking it never adds it to the
selection. -/
theorem joinSwapDisabledInvariant (a n : SwapNode) (ha : a.role = .join)
    (hn : n.role ≠ .join) (hs : isSibling a n = false) :
    swapEnabled a n = false ∧ n ∉ orderModeClick a n := by
  have henabled : swapEnabled a n = false := by
    unfold swapEnabled
    rw [ha]
    simp only [hs, Bool.or_false]
    cases hr : n.role
    · rfl
    · exact absurd hr hn
    · rfl
  refine ⟨henabled, ?_⟩
  unfold orderModeClick
  by_cases hid : n.id = a.id
  · rw [if_pos hid]
    simp
  · rw [if_neg hid]
    simp only [henabled, Bool.false_eq_true, if_false]
    intro hmem
    exact hid (congrArg SwapNode.id (List.mem_singleton.mp hmem))

theorem joinSwapDisabledInvariantWitness :
    (selectedJoinNode.role = .join
      ∧ unrelatedScanNode.role ≠ .join
      ∧ isSibling selectedJoinNode unrelatedScanNode = false)
    ∧ (swapEnabled selectedJoinNode unrelatedScanNode = false
      ∧ unrelatedScanNode ∉ orderModeClick selectedJoinNode unrelatedScanNode) :=
  ⟨⟨rfl, by decide, rfl⟩,
   joinSwapDisabledInvariant selectedJoinNode unrelatedScanNode rfl (by decide) rfl⟩

/-! ## Dangling-edge tolerance -/

theorem aqpMapOf_keyOk (nodes : List AQPNode) : KeyOk AQPStored.id (aqpMapOf nodes) := by
  unfold aqpMapOf
  exact foldlInsert_keyOk (fun n : AQPNode => n.id) AQPStored.id aqpStore (fun _ => rfl)
    nodes [] (fun p hp => absurd hp (List.not_mem_nil p))

theorem aqpMapGet_isSome (nodes : List AQPNode) (k : String) :
    (jsMapGet (aqpMapOf nodes) k).isSome = nodes.any (fun n => n.id = k) := by
  rw [jsMapGet_isSome_any]
  unfold aqpMapOf
  have h := foldlInsert_any_key (fun n : AQPNode => n.id) aqpStore k nodes []
  simpa using h

theorem nxMapGet_isSome (nodes : List NXNode) (k : String) :
    (jsMapGet (nxMapOf nodes) k).isSome = nodes.any (fun n => n.id = k) := by
  rw [jsMapGet_isSome_any]
  unfold nxMapOf
  have h := foldlInsert_any_key (fun n : NXNode => n.id) (fun n => n) k nodes []
  simpa using h

theorem edgeEndpointsAmongNodes_eq (nodes : List AQPNode) (e : GraphEdge) :
    edgeEndpointsAmongNodes nodes e = edgeInMap (aqpMapOf nodes) e := by
  unfold edgeEndpointsAmongNodes edgeInMap
  rw [aqpMapGet_isSome nodes e.source, aqpMapGet_isSome nodes e.target]

theorem nxEdgeEndpointsAmongNodes_eq (nodes : List NXNode) (e : GraphEdge) :
    nxEdgeEndpointsAmongNodes nodes e = edgeInMap (nxMapOf nodes) e := by
  unfold nxEdgeEndpointsAmongNodes edgeInMap
  rw [nxMapGet_isSome nodes e.source, nxMapGet_isSome nodes e.target]

theorem convertAQPToTree_skips_invalid (d : AQPData) :
    convertAQPToTree { d with edges := d.edges.filter (edgeEndpointsAmongNodes d.nodes) }
      = convertAQPToTree d := by
  have hpred : d.edges.filter (edgeEndpointsAmongNodes d.nodes)
      = d.edges.filter (edgeInMap (aqpMapOf d.nodes)) :=
    List.filter_congr (fun e _ => edgeEndpointsAmongNodes_eq d.nodes e)
  simp only [convertAQPToTree]
  rw [hpred]
  cases hf : (jsMapValues (aqpMapOf d.nodes)).find? (fun s => s.isRoot) with
  | some r =>
    have hrmem : r ∈ jsMapValues (aqpMapOf d.nodes) := List.mem_of_find?_eq_some hf
    have hrsome := jsMapGet_isSome_of_mem_values AQPStored.id _ (aqpMapOf_keyOk d.nodes)
      r hrmem
    exact congrArg some (buildLinked_filter_valid AQPStored.id AQPTree.mk _ d.edges
      (aqpMapOf_keyOk d.nodes) _ r hrsome)
  | none =>
    cases hh : (jsMapValues (aqpMapOf d.nodes)).head? with
    | none => rfl
    | some r =>
      have hrmem : r ∈ jsMapValues (aqpMapOf d.nodes) := by
        cases hl : jsMapValues (aqpMapOf d.nodes) with
        | nil => rw [hl] at hh; simp at hh
        | cons a tl =>
          rw [hl] at hh
          simp only [List.head?_cons, Option.some.injEq] at hh
          subst hh
          exact List.mem_cons_self a tl
      have hrsome := jsMapGet_isSome_of_mem_values AQPStored.id _ (aqpMapOf_keyOk d.nodes)
        r hrmem
      exact congrArg some (buildLinked_filter_valid AQPStored.id AQPTree.mk _ d.edges
        (aqpMapOf_keyOk d.nodes) _ r hrsome)

theorem convertAQPToTree_isSome (d : AQPData) :
    (convertAQPToTree d).isSome = !d.nodes.isEmpty := by
  obtain ⟨nodes, edges⟩ := d
  cases nodes with
  | nil => rfl
  | cons n ns =>
    have hm : aqpMapOf (n :: ns) ≠ [] := by
      unfold aqpMapOf
      rw [List.foldl_cons]
      exact foldlInsert_ne_nil (fun x : AQPNode => x.id) aqpStore ns _
        (jsMapInsert_ne_nil [] n.id (aqpStore n))
    simp only [convertAQPToTree]
    cases hf : (jsMapValues (aqpMapOf (n :: ns))).find? (fun s => s.isRoot) with
    | some r => simp
    | none =>
      cases hl : jsMapValues (aqpMapOf (n :: ns)) with
      | nil =>
        exact absurd (List.map_eq_nil_iff.mp hl) hm
      | cons a tl => simp [hl]

theorem convertNetworkXToTree_skips_invalid (d : NetworkXData) :
    convertNetworkXToTree
        { d with edges := d.edges.filter (nxEdgeEndpointsAmongNodes d.nodes) }
      = convertNetworkXToTree d := by
  have hpred : d.edges.filter (nxEdgeEndpointsAmongNodes d.nodes)
      = d.edges.filter (edgeInMap (nxMapOf d.nodes)) :=
    List.filter_congr (fun e _ => nxEdgeEndpointsAmongNodes_eq d.nodes e)
  simp only [convertNetworkXToTree]
  rw [hpred]
  cases hg : jsMapGet (nxMapOf d.nodes) "1" with
  | none => rfl
  | some r =>
    have hrid : r.id = "1" := jsMapGet_id NXNode.id _ (nxMapOf_keyOk d.nodes) "1" r hg
    have hrsome : (jsMapGet (nxMapOf d.nodes) r.id).isSome := by rw [hrid, hg]; rfl
    exact congrArg some (buildLinked_filter_valid NXNode.id nxMk _ d.edges
      (nxMapOf_keyOk d.nodes) _ r hrsome)

/-- Claim C10: ingestion is total on dangling edges — filtering out every
edge whose source or target id does not occur among the payload nodes
changes nothing (such edges add no child and raise no error), and a tree is
still returned exactly when the node list is non-empty. -/
theorem ingestionSkipsDanglingEdges :
    (∀ d : AQPData,
        convertAQPToTree { d with edges := d.edges.filter (edgeEndpointsAmongNodes d.nodes) }
          = convertAQPToTree d
      ∧ (convertAQPToTree d).isSome = !d.nodes.isEmpty)
  ∧ (∀ d : NetworkXData,
        convertNetworkXToTree
            { d with edges := d.edges.filter (nxEdgeEndpointsAmongNodes d.nodes) }
          = convertNetworkXToTree d) :=
  ⟨fun d => ⟨convertAQPToTree_skips_invalid d, convertAQPToTree_isSome d⟩,
   convertNetworkXToTree_skips_invalid⟩

theorem emptyPendingNoRequestWitness :
    (PanelState.pendingChanges (ingestQepData initialPanelState demoGraph) = [])
    ∧ (generateAQPRequest (ingestQepData initialPanelState demoGraph) "select 1").1 = none
    ∧ (generateAQPRequest (ingestQepData initialPanelState demoGraph) "select 1").2
        = { ingestQepData initialPanelState demoGraph with showErrorNotification := true } :=
  ⟨rfl, emptyPendingNoRequest (ingestQepData initialPanelState demoGraph) "select 1" rfl⟩
